import Mathlib

/-!
Verification of the `og_logger` asynchronous, process-safe file sink
(`og_logger/setup.py`, class `AsyncSafeFileSink` and `setup_logger`).

The Python source is shallowly embedded:
* file names are lists of characters (`Name`); all files of a sink live in
  one directory, so only the final path component is modelled;
* `pathlib.Path.with_suffix` is modelled by `withSuffix` using pathlib's
  rule for the suffix (the part from the last dot `i` with `0 < i < len-1`);
* the file system is a list of `FileEntry` (name, mtime, content);
* the in-process sink state (queue, written lines, flushed/shutdown flags)
  is a record `SinkState`, its operations small-step functions;
* fallible OS effects (stat, lock acquisition, file I/O) are explicit
  parameters (`StatResult`, boolean outcome flags).
-/

namespace OgLogger

/-- A file name (one path component), as a list of characters. -/
abbrev Name := List Char

/-- Index of the last `'.'` in a name, if any (0-based).
Supports the pathlib suffix rule used by `Path.with_suffix`. -/
def lastDotIdx : Name → Option Nat
  | [] => none
  | c :: rest =>
    match lastDotIdx rest with
    | some i => some (i + 1)
    | none => if c = '.' then some 0 else none

/-- pathlib's stem/suffix split: the suffix starts at the last dot `i`
provided `0 < i < length - 1`; otherwise the suffix is empty.
Mirrors `PurePath.stem` / `PurePath.suffix`. -/
def pySplitExt (name : Name) : Name × Name :=
  match lastDotIdx name with
  | some i => if 0 < i ∧ i + 1 < name.length then (name.take i, name.drop i) else (name, [])
  | none => (name, [])

/-- `Path.with_suffix(suf)`: drop the current suffix, append `suf`. -/
def withSuffix (name suf : Name) : Name :=
  (pySplitExt name).1 ++ suf

/-- A wall-clock instant, with the fields `strftime("%Y%m%d_%H%M%S_%f")` reads. -/
structure DateTime where
  year : Nat
  month : Nat
  day : Nat
  hour : Nat
  minute : Nat
  second : Nat
  micro : Nat
deriving DecidableEq, Repr

/-- Fixed-width zero-padded decimal rendering of `n` (as `%0wd` for in-range
values), digit characters only. -/
def padNum : Nat → Nat → Name
  | 0, _ => []
  | w + 1, n => padNum w (n / 10) ++ [Char.ofNat (48 + n % 10)]

/-- `datetime.now().strftime("%Y%m%d_%H%M%S_%f")` from
`AsyncSafeFileSink._get_rotated_path`. -/
def formatTimestamp (t : DateTime) : Name :=
  (padNum 4 t.year ++ padNum 2 t.month ++ padNum 2 t.day) ++
    '_' :: (padNum 2 t.hour ++ padNum 2 t.minute ++ padNum 2 t.second) ++
    '_' :: padNum 6 t.micro

/-- `AsyncSafeFileSink._get_rotated_path`:
`self.base_path.with_suffix(f".{timestamp}.log")`. -/
def getRotatedPath (base ts : Name) : Name :=
  withSuffix base ('.' :: (ts ++ ".log".data))

/-- Outcome of `Path.stat()` on the active file: a size, a missing file
(`FileNotFoundError`), or another `OSError`. -/
inductive StatResult
  | ok (size : Nat)
  | missing
  | ioError
deriving DecidableEq, Repr

/-- `AsyncSafeFileSink._should_rotate`: `st_size >= max_size_bytes`, with
`except (OSError, FileNotFoundError): return False`. -/
def shouldRotate (st : StatResult) (maxSizeBytes : Nat) : Bool :=
  match st with
  | .ok size => decide (maxSizeBytes ≤ size)
  | .missing => false
  | .ioError => false

/-- One file of the sink's directory: name, modification time (seconds),
content (the appended lines). -/
structure FileEntry where
  name : Name
  mtime : Int
  content : List String
deriving DecidableEq, Repr

/-- The sink's directory, as the list of its files. -/
abbrev FS := List FileEntry

/-- `AsyncSafeFileSink._rotate`: when the active file exists, rename it to
the timestamped rotated path; when it does not (a peer already rotated it),
do nothing.  An `OSError` of the rename is swallowed in the source; the
single-process model renames deterministically. -/
def rotate (fs : FS) (base : Name) (t : DateTime) : FS :=
  if fs.any (fun f => decide (f.name = base)) then
    fs.map (fun f =>
      if f.name = base then { f with name := getRotatedPath base (formatTimestamp t) } else f)
  else fs

/-- Glob matching for the one pattern `_cleanup_old_files` builds,
`str(self.base_path.with_suffix(".*.log"))`: the name is the base path's
stem, a dot, any (possibly empty) character run for `*`, then `.log`.
Plain (metacharacter-free) stems are assumed, as produced by the logger. -/
def matchesRotatedPattern (base fname : Name) : Bool :=
  let stem := (pySplitExt base).1
  (stem ++ ['.']).isPrefixOf fname && ".log".data.isSuffixOf fname &&
    decide (stem.length + 5 ≤ fname.length)

/-- The retention age bound of `_cleanup_old_files`: unit seconds per
retention type, with the source's `else` branch defaulting to days. -/
def maxAgeSeconds (retentionType : String) (retentionCount : Nat) : Nat :=
  if retentionType = "days" then retentionCount * 86400
  else if retentionType = "hours" then retentionCount * 3600
  else if retentionType = "weeks" then retentionCount * 604800
  else retentionCount * 86400

/-- Descending-by-mtime ordering used on the glob results:
`sorted(..., key=os.path.getmtime, reverse=True)`. -/
def mtimeGE (a b : FileEntry) : Prop := b.mtime ≤ a.mtime

instance : DecidableRel mtimeGE := fun a b => Int.decLe b.mtime a.mtime

instance : IsTotal FileEntry mtimeGE := ⟨fun a b => Int.le_total b.mtime a.mtime⟩

instance : IsTrans FileEntry mtimeGE :=
  ⟨fun _ _ _ hab hbc => le_trans hbc hab⟩

/-- Sort files most-recently-modified first (stable, like Python `sorted`). -/
def sortByMtimeDesc (l : List FileEntry) : List FileEntry :=
  l.insertionSort mtimeGE

/-- The files matching the rotated-file glob pattern, unsorted. -/
def rotatedOf (base : Name) (fs : FS) : List FileEntry :=
  fs.filter (fun f => matchesRotatedPattern base f.name)

/-- `rotated_files` of `_cleanup_old_files`: glob matches, newest first. -/
def rotatedFilesOf (base : Name) (fs : FS) : List FileEntry :=
  sortByMtimeDesc (rotatedOf base fs)

/-- The files `_cleanup_old_files` removes: under policy `files` everything
past the first `retentionCount` newest; under a time policy every file whose
age `now - mtime` strictly exceeds `maxAgeSeconds`. -/
def cleanupDeletions (retentionType : String) (retentionCount : Nat) (now : Int)
    (base : Name) (fs : FS) : List FileEntry :=
  if retentionType = "files" then (rotatedFilesOf base fs).drop retentionCount
  else (rotatedFilesOf base fs).filter
    (fun f => decide ((maxAgeSeconds retentionType retentionCount : Int) < now - f.mtime))

/-- Effect of `_cleanup_old_files` on the directory: `os.remove` of each
deletion candidate (removal is by path, so by name). -/
def cleanupOldFiles (retentionType : String) (retentionCount : Nat) (now : Int)
    (base : Name) (fs : FS) : FS :=
  fs.filter (fun f =>
    !(cleanupDeletions retentionType retentionCount now base fs).any
      (fun d => decide (d.name = f.name)))

/-- Where a batch ended up after `_write_batch`. -/
inductive BatchOutcome
  | empty
  | writtenLocked
  | writtenUnlocked
  | lost
deriving DecidableEq, Repr

/-- `AsyncSafeFileSink._write_batch` at whole-batch granularity over the
active file's content.  `lockOk` is acquiring the inter-process lock within
its timeout, `ioOk` the rotate-check/rotate/prune/append inside the locked
section, `fallbackOk` the direct unlocked append of the `except` branch. -/
def writeBatch (lockOk ioOk fallbackOk : Bool) (content messages : List String) :
    List String × BatchOutcome :=
  if messages.isEmpty then (content, .empty)
  else if lockOk && ioOk then (content ++ messages, .writtenLocked)
  else if fallbackOk then (content ++ messages, .writtenUnlocked)
  else (content, .lost)

/-- The in-process state of one `AsyncSafeFileSink`: the unbounded queue,
the lines already handed to the file, and the `_flushed` / `_shutdown`
flags. -/
structure SinkState where
  queue : List String
  written : List String
  flushed : Bool
  shutdown : Bool
deriving DecidableEq, Repr

/-- The state `__init__` leaves behind: empty queue, nothing written,
`_flushed = False`, `_shutdown` event not set. -/
def initialSink : SinkState :=
  { queue := [], written := [], flushed := false, shutdown := false }

/-- Capacity of `queue.Queue()` as constructed in `__init__`: unbounded. -/
def sinkQueueCapacity : Option Nat := none

/-- `Queue.put_nowait`: `none` models raising `queue.Full`. -/
def putNowait (capacity : Option Nat) (q : List String) (line : String) :
    Option (List String) :=
  match capacity with
  | none => some (q ++ [line])
  | some c => if q.length < c then some (q ++ [line]) else none

/-- The `try: put_nowait ... except queue.Full: pass` of `write`, at the
sink's actual (unbounded) capacity. -/
def enqueueLine (line : String) (s : SinkState) : SinkState :=
  match putNowait sinkQueueCapacity s.queue line with
  | some q' => { s with queue := q' }
  | none => s

/-- `AsyncSafeFileSink.write`: run the serializer (uncaught — its exception
propagates), then enqueue with `queue.Full` swallowed. -/
def write (serialized : Except String String) (s : SinkState) :
    Except String SinkState :=
  match serialized with
  | .error e => .error e
  | .ok line => .ok (enqueueLine line s)

/-- `AsyncSafeFileSink.flush`: return at once when already flushed;
otherwise set `_flushed`, set `_shutdown`, join the worker, then drain the
whole queue with `get_nowait` and write the remainder. -/
def flush (s : SinkState) : SinkState :=
  if s.flushed then s
  else { queue := [], written := s.written ++ s.queue, flushed := true, shutdown := true }

/-- One iteration of `_writer_loop`: nothing once `_shutdown` is set (the
loop has exited); otherwise take a batch of up to 100 queued lines and
write it. -/
def workerStep (s : SinkState) : SinkState :=
  if s.shutdown then s
  else { s with queue := s.queue.drop 100, written := s.written ++ s.queue.take 100 }

/-- The events that can hit a sink after construction. -/
inductive SinkOp
  | write (line : String)
  | flush
  | workerStep

/-- Interleaving semantics: apply one event. -/
def stepOp : SinkOp → SinkState → SinkState
  | .write line, s => enqueueLine line s
  | .flush, s => flush s
  | .workerStep, s => workerStep s

/-- Apply a sequence of events, oldest first. -/
def runOps (ops : List SinkOp) (s : SinkState) : SinkState :=
  ops.foldl (fun s op => stepOp op s) s

/-- The retention types `setup_logger` accepts. -/
def validRetentionTypes : List String := ["files", "days", "hours", "weeks"]

/-- The validation in `setup_logger`: lowercase the requested type, then
`raise ValueError` (modelled as `.error`) unless it is one of the four. -/
def setupRetentionType (retentionType : String) : Except String String :=
  let rt := retentionType.toLower
  if rt ∈ validRetentionTypes then .ok rt
  else .error ("Invalid retention_type: " ++ rt ++ ". Must be: days, hours, weeks, or files")

/-- The configuration a constructed sink carries (`AsyncSafeFileSink.__init__`). -/
structure SinkConfig where
  basePath : Name
  maxSizeBytes : Nat
  retentionCount : Nat
  retentionType : String
deriving DecidableEq, Repr

/-- The file-sink construction path of `setup_logger`: validate the
retention type first; only when validation passes is
`AsyncSafeFileSink(path=f"{base_dir}/app.log", ...)` constructed (the name
within the directory is always `app.log`). -/
def setupFileSink (maxMb retentionCount : Nat)
    (retentionType : String) : Except String SinkConfig :=
  match setupRetentionType retentionType with
  | .error e => .error e
  | .ok rt =>
    .ok { basePath := "app.log".data, maxSizeBytes := maxMb * 1024 * 1024,
          retentionCount := retentionCount, retentionType := rt }

/-! ### Helper lemmas about the path model -/

lemma lastDotIdx_eq_none (e : Name) (h : '.' ∉ e) : lastDotIdx e = none := by
  induction e with
  | nil => rfl
  | cons c rest ih =>
    simp only [List.mem_cons, not_or] at h
    simp only [lastDotIdx, ih h.2]
    exact if_neg (fun hc => h.1 hc.symm)

lemma not_mem_of_lastDotIdx_eq_none (e : Name) (h : lastDotIdx e = none) : '.' ∉ e := by
  induction e with
  | nil => simp
  | cons c rest ih =>
    simp only [lastDotIdx] at h
    cases hr : lastDotIdx rest with
    | some j => rw [hr] at h; cases h
    | none =>
      rw [hr] at h
      by_cases hc : c = '.'
      · rw [if_pos hc] at h; cases h
      · simp only [List.mem_cons, not_or]
        exact ⟨fun hd => hc hd.symm, ih hr⟩

lemma lastDotIdx_append_cons (stem e : Name) (h : '.' ∉ e) :
    lastDotIdx (stem ++ '.' :: e) = some stem.length := by
  induction stem with
  | nil => simp [lastDotIdx, lastDotIdx_eq_none e h]
  | cons c rest ih => simp [lastDotIdx, ih]

lemma lastDotIdx_spec (name : Name) (i : Nat) (h : lastDotIdx name = some i) :
    i < name.length ∧ name.drop i = '.' :: name.drop (i + 1) ∧
      '.' ∉ name.drop (i + 1) := by
  induction name generalizing i with
  | nil => cases h
  | cons c rest ih =>
    simp only [lastDotIdx] at h
    cases hr : lastDotIdx rest with
    | some j =>
      rw [hr] at h
      obtain rfl : j + 1 = i := Option.some.inj h
      obtain ⟨h1, h2, h3⟩ := ih j hr
      refine ⟨by simpa using Nat.succ_lt_succ h1, ?_, ?_⟩
      · simpa using h2
      · simpa using h3
    | none =>
      rw [hr] at h
      by_cases hc : c = '.'
      · rw [if_pos hc] at h
        obtain rfl : (0 : Nat) = i := Option.some.inj h
        subst hc
        exact ⟨by simp, by simp, by simpa using not_mem_of_lastDotIdx_eq_none rest hr⟩
      · rw [if_neg hc] at h; cases h

lemma pySplitExt_append (stem e : Name) (hs : stem ≠ []) (he : e ≠ [])
    (h : '.' ∉ e) : pySplitExt (stem ++ '.' :: e) = (stem, '.' :: e) := by
  unfold pySplitExt
  rw [lastDotIdx_append_cons stem e h]
  have hstem : 0 < stem.length := List.length_pos.mpr hs
  have he' : 0 < e.length := List.length_pos.mpr he
  have hlen : (stem ++ '.' :: e).length = stem.length + 1 + e.length := by
    simp [List.length_append]; omega
  dsimp only
  rw [if_pos ⟨hstem, by omega⟩]
  rw [List.take_left, List.drop_left]

/-- Either the base path has no (pathlib) suffix and its stem is itself, or
it splits as stem, a dot, and a dot-free extension body. -/
lemma pySplitExt_fst_cases (base : Name) :
    (pySplitExt base).1 = base ∨
      ∃ e, base = (pySplitExt base).1 ++ '.' :: e ∧ '.' ∉ e := by
  unfold pySplitExt
  cases h : lastDotIdx base with
  | none => exact Or.inl rfl
  | some i =>
    dsimp only
    by_cases hi : 0 < i ∧ i + 1 < base.length
    · rw [if_pos hi]
      obtain ⟨_, h2, h3⟩ := lastDotIdx_spec base i h
      refine Or.inr ⟨base.drop (i + 1), ?_, h3⟩
      conv_lhs => rw [← List.take_append_drop i base]
      rw [h2]
    · rw [if_neg hi]
      exact Or.inl rfl

lemma dot_mem_dotLog : ('.' : Char) ∈ ".log".data := by decide

lemma dotLog_length : (".log".data).length = 4 := by decide

/-- The active file's own name never matches the rotated-file glob pattern:
pruning candidates never include the active file. -/
lemma matchesRotatedPattern_self (base : Name) :
    matchesRotatedPattern base base = false := by
  unfold matchesRotatedPattern
  rcases pySplitExt_fst_cases base with hcase | ⟨e, hbase, hne⟩
  · cases hp : ((pySplitExt base).1 ++ ['.']).isPrefixOf base with
    | false => simp [hp]
    | true =>
      exfalso
      have hle := List.IsPrefix.length_le (List.isPrefixOf_iff_prefix.mp hp)
      rw [hcase] at hle
      simp only [List.length_append, List.length_cons, List.length_nil] at hle
      omega
  · set stem := (pySplitExt base).1 with hstem
    have hlenbase : base.length = stem.length + 1 + e.length := by
      conv_lhs => rw [hbase]
      simp only [List.length_append, List.length_cons]
      omega
    by_cases h4 : 4 ≤ e.length
    · cases hs : (".log".data).isSuffixOf base with
      | false => simp [hs]
      | true =>
        exfalso
        obtain ⟨t, ht⟩ := List.isSuffixOf_iff_suffix.mp hs
        have hbase' : base = (stem ++ ['.']) ++ e := by
          rw [hbase]; simp
        have hlent : t.length + 4 = base.length := by
          have hl := congrArg List.length ht
          simp only [List.length_append, dotLog_length] at hl
          exact hl
        have htlen : t.length = (stem ++ ['.']).length + (e.length - 4) := by
          simp only [List.length_append, List.length_cons, List.length_nil]
          omega
        have hdrop : ".log".data = List.drop (e.length - 4) e := by
          have h1 : ".log".data = List.drop t.length base := by
            rw [← ht, List.drop_left]
          rw [htlen] at h1
          rw [hbase'] at h1
          rw [List.drop_append] at h1
          exact h1
        have : ('.' : Char) ∈ e :=
          List.drop_subset _ _ (hdrop ▸ dot_mem_dotLog)
        exact hne this
    · have hnot : ¬ (stem.length + 5 ≤ base.length) := by omega
      have hdec : decide (stem.length + 5 ≤ base.length) = false :=
        decide_eq_false hnot
      simp [hdec]

/-! ### Helper lemmas about sorting and name-distinct file lists -/

/-- In a list whose entries have pairwise distinct names, an entry is
determined by its name. -/
lemma eq_of_pairwise_name_ne {l : List FileEntry}
    (h : l.Pairwise (fun a b => a.name ≠ b.name)) {f g : FileEntry}
    (hf : f ∈ l) (hg : g ∈ l) (hname : f.name = g.name) : f = g := by
  induction l with
  | nil => cases hf
  | cons x rest ih =>
    obtain ⟨hx, hrest⟩ := List.pairwise_cons.mp h
    rcases List.mem_cons.mp hf with rfl | hf'
    · rcases List.mem_cons.mp hg with rfl | hg'
      · rfl
      · exact absurd hname (hx g hg')
    · rcases List.mem_cons.mp hg with rfl | hg'
      · exact absurd hname.symm (hx f hf')
      · exact ih hrest hf' hg'

lemma sortByMtimeDesc_perm (l : List FileEntry) : (sortByMtimeDesc l).Perm l :=
  List.perm_insertionSort mtimeGE l

lemma sortByMtimeDesc_sorted (l : List FileEntry) :
    List.Sorted mtimeGE (sortByMtimeDesc l) :=
  List.sorted_insertionSort mtimeGE l

lemma mem_sortByMtimeDesc {l : List FileEntry} {f : FileEntry} :
    f ∈ sortByMtimeDesc l ↔ f ∈ l :=
  (sortByMtimeDesc_perm l).mem_iff

/-! ### Helper lemmas about the sink state machine -/

lemma enqueueLine_eq (line : String) (s : SinkState) :
    enqueueLine line s = { s with queue := s.queue ++ [line] } := rfl

/-- Once `_flushed` and `_shutdown` hold, no event changes them, and no
event moves anything from the queue to the file. -/
lemma stepOp_of_flushed (op : SinkOp) (s : SinkState)
    (hf : s.flushed = true) (hs : s.shutdown = true) :
    (stepOp op s).flushed = true ∧ (stepOp op s).shutdown = true ∧
      (stepOp op s).written = s.written := by
  cases op with
  | write line => simp [stepOp, enqueueLine_eq, hf, hs]
  | flush => simp [stepOp, flush, hf, hs]
  | workerStep => simp [stepOp, workerStep, hf, hs]

lemma runOps_cons (op : SinkOp) (ops : List SinkOp) (s : SinkState) :
    runOps (op :: ops) s = runOps ops (stepOp op s) := rfl

lemma runOps_of_flushed (ops : List SinkOp) (s : SinkState)
    (hf : s.flushed = true) (hs : s.shutdown = true) :
    (runOps ops s).flushed = true ∧ (runOps ops s).shutdown = true ∧
      (runOps ops s).written = s.written := by
  induction ops generalizing s with
  | nil => exact ⟨hf, hs, rfl⟩
  | cons op rest ih =>
    obtain ⟨h1, h2, h3⟩ := stepOp_of_flushed op s hf hs
    obtain ⟨g1, g2, g3⟩ := ih (stepOp op s) h1 h2
    rw [runOps_cons]
    exact ⟨g1, g2, by rw [g3, h3]⟩

/-! ### Helper lemmas about the timestamp format -/

lemma padNum_length (w n : Nat) : (padNum w n).length = w := by
  induction w generalizing n with
  | zero => rfl
  | succ w ih => simp [padNum, ih]

lemma padNum_digits (w n : Nat) : ∀ c ∈ padNum w n, c.isDigit = true := by
  induction w generalizing n with
  | zero => simp [padNum]
  | succ w ih =>
    intro c hc
    simp only [padNum, List.mem_append, List.mem_singleton] at hc
    rcases hc with hc | rfl
    · exact ih (n / 10) c hc
    · have hr : n % 10 < 10 := Nat.mod_lt _ (by norm_num)
      set r := n % 10 with hrdef
      interval_cases r <;> decide

/-! ### Claim theorems -/

/-- C1 (counterexample): the claim that `write` never raises to the caller
"regardless of the serialize function" is false: `write` runs
`self.serialize_func(record)` outside the `try`, so a raising serializer
propagates out of `write` at this concrete input. -/
theorem write_raises_on_serialize_error :
    write (Except.error "serialize failed") initialSink =
      Except.error "serialize failed" := rfl

/-- C1 (amended): for every sink state, a `write` whose serializer returns
normally enqueues the serialized line onto the unbounded queue and returns
without error — never blocking and never failing for a full queue (the
queue as constructed has no capacity bound) — while an exception raised by
the serialize function propagates to the caller with nothing enqueued. -/
theorem write_enqueues_and_raises_only_from_serializer :
    ∀ (line : String) (s : SinkState),
      write (Except.ok line) s = Except.ok { s with queue := s.queue ++ [line] } ∧
      (∀ e : String, write (Except.error e) s = Except.error e) ∧
      putNowait sinkQueueCapacity s.queue line = some (s.queue ++ [line]) := by
  intro line s
  exact ⟨rfl, fun _ => rfl, rfl⟩

/-- C2: for every non-empty batch, if acquiring the inter-process lock or
the I/O inside the locked section fails, the batch is appended to the
active file by the unlocked fallback instead of being dropped; the batch is
lost — silently, leaving the file unchanged — exactly when that fallback
write also fails. -/
theorem writeBatch_fallback_spec :
    ∀ (lockOk ioOk fallbackOk : Bool) (content messages : List String),
      messages ≠ [] →
      ((writeBatch lockOk ioOk fallbackOk content messages).2 = BatchOutcome.lost ↔
        (lockOk && ioOk) = false ∧ fallbackOk = false) ∧
      ((lockOk && ioOk) = false → fallbackOk = true →
        writeBatch lockOk ioOk fallbackOk content messages =
          (content ++ messages, BatchOutcome.writtenUnlocked)) ∧
      ((writeBatch lockOk ioOk fallbackOk content messages).2 = BatchOutcome.lost →
        (writeBatch lockOk ioOk fallbackOk content messages).1 = content) ∧
      ((lockOk && ioOk) = true →
        writeBatch lockOk ioOk fallbackOk content messages =
          (content ++ messages, BatchOutcome.writtenLocked)) := by
  intro lockOk ioOk fallbackOk content messages hne
  obtain ⟨m, ms, rfl⟩ : ∃ m ms, messages = m :: ms := by
    cases messages with
    | nil => exact absurd rfl hne
    | cons m ms => exact ⟨m, ms, rfl⟩
  cases lockOk <;> cases ioOk <;> cases fallbackOk <;> simp [writeBatch]

/-- C2 witness: a failed locked section with a succeeding fallback at a
concrete one-line batch. -/
theorem writeBatch_fallback_spec_witness :
    (((writeBatch false false true [] ["line"]).2 = BatchOutcome.lost ↔
        ((false : Bool) && false) = false ∧ (true : Bool) = false) ∧
      (((false : Bool) && false) = false → (true : Bool) = true →
        writeBatch false false true [] ["line"] =
          ([] ++ ["line"], BatchOutcome.writtenUnlocked)) ∧
      ((writeBatch false false true [] ["line"]).2 = BatchOutcome.lost →
        (writeBatch false false true [] ["line"]).1 = []) ∧
      (((false : Bool) && false) = true →
        writeBatch false false true [] ["line"] =
          ([] ++ ["line"], BatchOutcome.writtenLocked))) :=
  writeBatch_fallback_spec false false true [] ["line"] (by decide)

/-- C3: `flush` is idempotent — a second call on an already-flushed sink is
the identity — and the first call marks the sink flushed, signals shutdown,
drains the queue, and writes exactly the buffered lines: the combined
written-then-buffered lines are preserved, with no duplication and no
loss. -/
theorem flush_idempotent_and_conserves :
    ∀ s : SinkState,
      flush (flush s) = flush s ∧
      (flush s).written ++ (flush s).queue = s.written ++ s.queue ∧
      (flush s).flushed = true ∧
      (s.flushed = true → flush s = s) ∧
      (s.flushed = false →
        (flush s).queue = [] ∧ (flush s).written = s.written ++ s.queue ∧
          (flush s).shutdown = true) := by
  intro s
  by_cases hf : s.flushed = true
  · simp [flush, hf]
  · simp only [Bool.not_eq_true] at hf
    simp [flush, hf]

/-- C4: the rotation check fails open: a missing active file or an I/O
error from `stat` yields `false` (no exception reaches the worker), and for
a stat-able file it is `true` exactly when the size is at least the
configured maximum. -/
theorem shouldRotate_fail_open :
    ∀ (maxSizeBytes size : Nat),
      shouldRotate StatResult.missing maxSizeBytes = false ∧
      shouldRotate StatResult.ioError maxSizeBytes = false ∧
      (shouldRotate (StatResult.ok size) maxSizeBytes = true ↔ maxSizeBytes ≤ size) := by
  intro m sz
  exact ⟨rfl, rfl, by simp [shouldRotate]⟩

/-- C8: an invalid retention type is rejected when the sink is constructed
through `setup_logger`: the lowercased type is checked against
files/days/hours/weeks before the sink exists, and a type outside that set
yields an error and no sink configuration at all. -/
theorem setup_invalid_retention_is_error :
    ∀ (maxMb retentionCount : Nat) (retentionType : String),
      (retentionType.toLower ∉ validRetentionTypes →
        setupFileSink maxMb retentionCount retentionType =
          Except.error ("Invalid retention_type: " ++ retentionType.toLower ++
            ". Must be: days, hours, weeks, or files") ∧
        ∀ cfg, setupFileSink maxMb retentionCount retentionType ≠ Except.ok cfg) ∧
      (retentionType.toLower ∈ validRetentionTypes →
        ∃ cfg, setupFileSink maxMb retentionCount retentionType = Except.ok cfg ∧
          cfg.retentionType = retentionType.toLower) := by
  intro maxMb retentionCount retentionType
  constructor
  · intro h
    have hval : setupRetentionType retentionType =
        Except.error ("Invalid retention_type: " ++ retentionType.toLower ++
          ". Must be: days, hours, weeks, or files") := by
      unfold setupRetentionType
      rw [if_neg h]
    constructor
    · unfold setupFileSink
      rw [hval]
    · intro cfg hcfg
      unfold setupFileSink at hcfg
      rw [hval] at hcfg
      cases hcfg
  · intro h
    have hval : setupRetentionType retentionType = Except.ok retentionType.toLower := by
      unfold setupRetentionType
      rw [if_pos h]
    refine ⟨{ basePath := "app.log".data, maxSizeBytes := maxMb * 1024 * 1024,
              retentionCount := retentionCount,
              retentionType := retentionType.toLower }, ?_, rfl⟩
    unfold setupFileSink
    rw [hval]

/-- C9: once a sink is flushed (`_flushed` and `_shutdown` both set), a
further `write` is still accepted into the queue without error, but no
subsequent sequence of events — further writes, flush calls (now no-ops),
or worker iterations (the loop has exited) — ever adds anything to the
file: the late line is never written. -/
theorem write_after_flushed_accepted_never_processed :
    ∀ (s : SinkState) (line : String) (ops : List SinkOp),
      s.flushed = true → s.shutdown = true →
      stepOp (SinkOp.write line) s = { s with queue := s.queue ++ [line] } ∧
      line ∈ (stepOp (SinkOp.write line) s).queue ∧
      (runOps ops (stepOp (SinkOp.write line) s)).written = s.written := by
  intro s line ops hf hs
  refine ⟨enqueueLine_eq line s, ?_, ?_⟩
  · rw [show stepOp (SinkOp.write line) s = enqueueLine line s from rfl,
      enqueueLine_eq]
    simp
  · obtain ⟨_, _, h3⟩ := runOps_of_flushed ops (stepOp (SinkOp.write line) s)
      (by exact hf) (by exact hs)
    rw [h3]
    rfl

/-- C9 witness: a concrete flushed sink accepting one late write that no
later worker step or flush call ever processes. -/
theorem write_after_flushed_witness :
    (stepOp (SinkOp.write "late")
        { queue := [], written := ["w1"], flushed := true, shutdown := true } =
      { queue := ["late"], written := ["w1"], flushed := true, shutdown := true } ∧
    "late" ∈ (stepOp (SinkOp.write "late")
        { queue := [], written := ["w1"], flushed := true, shutdown := true }).queue ∧
    (runOps [SinkOp.workerStep, SinkOp.flush, SinkOp.workerStep]
        (stepOp (SinkOp.write "late")
          { queue := [], written := ["w1"], flushed := true, shutdown := true })).written =
      (SinkState.mk [] ["w1"] true true).written) :=
  write_after_flushed_accepted_never_processed
    { queue := [], written := ["w1"], flushed := true, shutdown := true }
    "late" [SinkOp.workerStep, SinkOp.flush, SinkOp.workerStep] rfl rfl

/-- Every pruning candidate's name matches the rotated-file glob pattern. -/
lemma cleanupDeletions_matches {rt : String} {c : Nat} {now : Int} {base : Name}
    {fs : FS} {d : FileEntry} (hd : d ∈ cleanupDeletions rt c now base fs) :
    matchesRotatedPattern base d.name = true := by
  unfold cleanupDeletions at hd
  have hmem : d ∈ rotatedFilesOf base fs := by
    by_cases hrt : rt = "files"
    · rw [if_pos hrt] at hd
      exact List.drop_subset _ _ hd
    · rw [if_neg hrt] at hd
      exact List.mem_of_mem_filter hd
  have hrot : d ∈ rotatedOf base fs := mem_sortByMtimeDesc.mp hmem
  exact (List.mem_filter.mp hrot).2

/-- C5 (counterexample): the rotated name is not base_path followed by a
dot, the timestamp, and the extension: `with_suffix` first removes the
`.log` suffix of the base path, so for `app.log` the rotated name is
`app.<ts>.log`, not `app.log.<ts>.log`. -/
theorem getRotatedPath_not_append_to_base :
    getRotatedPath "app.log".data "20260101_120000_000000".data ≠
      "app.log".data ++ '.' :: ("20260101_120000_000000".data ++ ".log".data) := by
  decide

/-- C5 (amended): `rotate` renames the active file to a name formed from
base_path with its final extension removed, then a dot, a timestamp of the
form `YYYYMMDD_HHMMSS_microseconds`, then the `.log` extension (equal to
the original extension for the standard `app.log` base path); when the
active file no longer exists, `rotate` is a no-op without error. -/
theorem rotate_renames_with_replaced_suffix :
    ∀ (fs : FS) (stem e ts : Name) (t : DateTime),
      stem ≠ [] → e ≠ [] → '.' ∉ e →
      getRotatedPath (stem ++ '.' :: e) ts = stem ++ '.' :: (ts ++ ".log".data) ∧
      (fs.any (fun f => decide (f.name = stem ++ '.' :: e)) = false →
        rotate fs (stem ++ '.' :: e) t = fs) ∧
      (∀ f ∈ fs, f.name = stem ++ '.' :: e →
        { f with name := stem ++ '.' :: (formatTimestamp t ++ ".log".data) } ∈
          rotate fs (stem ++ '.' :: e) t) ∧
      (∃ d tm u, formatTimestamp t = d ++ '_' :: (tm ++ '_' :: u) ∧
        d.length = 8 ∧ tm.length = 6 ∧ u.length = 6 ∧
        ∀ c ∈ d ++ (tm ++ u), c.isDigit = true) := by
  intro fs stem e ts t hs he hdot
  have hrp : ∀ ts' : Name, getRotatedPath (stem ++ '.' :: e) ts' =
      stem ++ '.' :: (ts' ++ ".log".data) := by
    intro ts'
    unfold getRotatedPath withSuffix
    rw [pySplitExt_append stem e hs he hdot]
  refine ⟨hrp ts, ?_, ?_, ?_⟩
  · intro hnone
    unfold rotate
    rw [hnone]
    simp
  · intro f hf hname
    unfold rotate
    have hany : fs.any (fun f => decide (f.name = stem ++ '.' :: e)) = true := by
      rw [List.any_eq_true]
      exact ⟨f, hf, by simp [hname]⟩
    rw [hany]
    simp only [if_true]
    have hg : (if f.name = stem ++ '.' :: e then
        { f with name := getRotatedPath (stem ++ '.' :: e) (formatTimestamp t) }
        else f) =
        { f with name := stem ++ '.' :: (formatTimestamp t ++ ".log".data) } := by
      rw [if_pos hname, hrp]
    exact hg ▸ List.mem_map_of_mem _ hf
  · refine ⟨padNum 4 t.year ++ padNum 2 t.month ++ padNum 2 t.day,
      padNum 2 t.hour ++ padNum 2 t.minute ++ padNum 2 t.second,
      padNum 6 t.micro, rfl, ?_, ?_, ?_, ?_⟩
    · simp [List.length_append, padNum_length]
    · simp [List.length_append, padNum_length]
    · simp [padNum_length]
    · intro c hc
      simp only [List.mem_append] at hc
      rcases hc with ((h | h) | h) | ((h | h) | h) | h <;>
        exact padNum_digits _ _ c h

/-- C5 witness: the concrete rename of `app.log` at one timestamp. -/
theorem rotate_renames_with_replaced_suffix_witness :
    getRotatedPath ("app".data ++ '.' :: "log".data) "ts".data =
        "app".data ++ '.' :: ("ts".data ++ ".log".data) ∧
      (([⟨"app".data ++ '.' :: "log".data, 100, ["x"]⟩] : FS).any
          (fun f => decide (f.name = "app".data ++ '.' :: "log".data)) = false →
        rotate [⟨"app".data ++ '.' :: "log".data, 100, ["x"]⟩]
          ("app".data ++ '.' :: "log".data) ⟨2026, 1, 1, 12, 0, 0, 0⟩ =
          [⟨"app".data ++ '.' :: "log".data, 100, ["x"]⟩]) ∧
      (∀ f ∈ ([⟨"app".data ++ '.' :: "log".data, 100, ["x"]⟩] : FS),
        f.name = "app".data ++ '.' :: "log".data →
        { f with name := "app".data ++ '.' ::
            (formatTimestamp ⟨2026, 1, 1, 12, 0, 0, 0⟩ ++ ".log".data) } ∈
          rotate [⟨"app".data ++ '.' :: "log".data, 100, ["x"]⟩]
            ("app".data ++ '.' :: "log".data) ⟨2026, 1, 1, 12, 0, 0, 0⟩) ∧
      (∃ d tm u, formatTimestamp ⟨2026, 1, 1, 12, 0, 0, 0⟩ =
          d ++ '_' :: (tm ++ '_' :: u) ∧
        d.length = 8 ∧ tm.length = 6 ∧ u.length = 6 ∧
        ∀ c ∈ d ++ (tm ++ u), c.isDigit = true) :=
  rotate_renames_with_replaced_suffix
    [⟨"app".data ++ '.' :: "log".data, 100, ["x"]⟩]
    "app".data "log".data "ts".data ⟨2026, 1, 1, 12, 0, 0, 0⟩
    (by decide) (by decide) (by decide)

/-- C10: retention pruning never touches the active file: the deletion
candidates all match the rotated-file glob pattern, the active file's own
name never matches it, so the active file's entry (name, mtime, content)
survives pruning unchanged, and pruning only ever removes files. -/
theorem cleanup_never_deletes_active :
    ∀ (retentionType : String) (retentionCount : Nat) (now : Int) (base : Name)
      (fs : FS) (f : FileEntry),
      f ∈ fs → f.name = base →
      matchesRotatedPattern base base = false ∧
      f ∈ cleanupOldFiles retentionType retentionCount now base fs ∧
      (cleanupOldFiles retentionType retentionCount now base fs).Sublist fs := by
  intro rt c now base fs f hf hname
  refine ⟨matchesRotatedPattern_self base, ?_, List.filter_sublist _⟩
  unfold cleanupOldFiles
  rw [List.mem_filter]
  refine ⟨hf, ?_⟩
  cases hA : (cleanupDeletions rt c now base fs).any
      (fun d => decide (d.name = f.name)) with
  | false => rfl
  | true =>
    exfalso
    obtain ⟨d, hd, hp⟩ := List.any_eq_true.mp hA
    have heq : d.name = f.name := of_decide_eq_true hp
    have hm := cleanupDeletions_matches hd
    rw [heq, hname, matchesRotatedPattern_self base] at hm
    cases hm

/-- The active `app.log` next to one rotated file, for the C10 witness. -/
def activeEntry : FileEntry := ⟨"app.log".data, 100, ["hello"]⟩

/-- A two-file directory: the active file and one rotated file. -/
def demoFs : FS := [activeEntry, ⟨"app.1.log".data, 50, []⟩]

/-- C10 witness: pruning a concrete directory under the `files` policy with
count 0 (every rotated file is a candidate) keeps the active file. -/
theorem cleanup_never_deletes_active_witness :
    matchesRotatedPattern "app.log".data "app.log".data = false ∧
      activeEntry ∈ cleanupOldFiles "files" 0 0 "app.log".data demoFs ∧
      (cleanupOldFiles "files" 0 0 "app.log".data demoFs).Sublist demoFs :=
  cleanup_never_deletes_active "files" 0 0 "app.log".data demoFs activeEntry
    (by decide) rfl

lemma mem_rotatedFilesOf {base : Name} {fs : FS} {f : FileEntry} :
    f ∈ rotatedFilesOf base fs ↔ f ∈ rotatedOf base fs :=
  mem_sortByMtimeDesc

/-- C6: under the `files` policy, pruning keeps exactly the
`retentionCount` most recently modified rotated files (a rotated file
survives iff it is among the first `retentionCount` of the
newest-first ordering; every survivor is strictly newer than every deleted
file; the kept set has size `min retentionCount (number of rotated
files)`), and deletes all the others. -/
theorem cleanup_files_policy_keeps_most_recent :
    ∀ (retentionCount : Nat) (now : Int) (base : Name) (fs : FS),
      (rotatedOf base fs).Pairwise (fun a b => a.name ≠ b.name) →
      (rotatedOf base fs).Pairwise (fun a b => a.mtime ≠ b.mtime) →
      ((rotatedFilesOf base fs).take retentionCount).length =
        min retentionCount (rotatedOf base fs).length ∧
      (∀ f ∈ rotatedOf base fs,
        (f ∈ cleanupOldFiles "files" retentionCount now base fs ↔
          f ∈ (rotatedFilesOf base fs).take retentionCount)) ∧
      (∀ f ∈ (rotatedFilesOf base fs).take retentionCount,
        ∀ g ∈ cleanupDeletions "files" retentionCount now base fs,
          g.mtime < f.mtime) ∧
      cleanupDeletions "files" retentionCount now base fs =
        (rotatedFilesOf base fs).drop retentionCount := by
  intro n now base fs hn hm
  have hperm : (rotatedFilesOf base fs).Perm (rotatedOf base fs) :=
    sortByMtimeDesc_perm _
  have hsorted : List.Sorted mtimeGE (rotatedFilesOf base fs) :=
    sortByMtimeDesc_sorted _
  have hDel : cleanupDeletions "files" n now base fs =
      (rotatedFilesOf base fs).drop n := by
    unfold cleanupDeletions
    rw [if_pos rfl]
  have hKD : (rotatedFilesOf base fs).take n ++ (rotatedFilesOf base fs).drop n =
      rotatedFilesOf base fs := List.take_append_drop n _
  have hnS : (rotatedFilesOf base fs).Pairwise (fun a b => a.name ≠ b.name) :=
    (List.Perm.pairwise_iff (fun h => Ne.symm h) hperm).mpr hn
  have hmS : (rotatedFilesOf base fs).Pairwise (fun a b => a.mtime ≠ b.mtime) :=
    (List.Perm.pairwise_iff (fun h => Ne.symm h) hperm).mpr hm
  have hspCut : ∀ f ∈ (rotatedFilesOf base fs).take n,
      ∀ g ∈ (rotatedFilesOf base fs).drop n, mtimeGE f g := by
    have h' : List.Pairwise mtimeGE
        ((rotatedFilesOf base fs).take n ++ (rotatedFilesOf base fs).drop n) := by
      rw [hKD]; exact hsorted
    exact (List.pairwise_append.mp h').2.2
  have hneCut : ∀ f ∈ (rotatedFilesOf base fs).take n,
      ∀ g ∈ (rotatedFilesOf base fs).drop n, f.mtime ≠ g.mtime := by
    have h' : List.Pairwise (fun a b => a.mtime ≠ b.mtime)
        ((rotatedFilesOf base fs).take n ++ (rotatedFilesOf base fs).drop n) := by
      rw [hKD]; exact hmS
    exact (List.pairwise_append.mp h').2.2
  have hnameCut : ∀ f ∈ (rotatedFilesOf base fs).take n,
      ∀ g ∈ (rotatedFilesOf base fs).drop n, f.name ≠ g.name := by
    have h' : List.Pairwise (fun a b => a.name ≠ b.name)
        ((rotatedFilesOf base fs).take n ++ (rotatedFilesOf base fs).drop n) := by
      rw [hKD]; exact hnS
    exact (List.pairwise_append.mp h').2.2
  refine ⟨?_, ?_, ?_, hDel⟩
  · rw [List.length_take, hperm.length_eq]
  · intro f hfR
    constructor
    · intro hfs'
      unfold cleanupOldFiles at hfs'
      have hkeep := (List.mem_filter.mp hfs').2
      have hfnotD : f ∉ (rotatedFilesOf base fs).drop n := by
        intro hfd
        have hany : (cleanupDeletions "files" n now base fs).any
            (fun d => decide (d.name = f.name)) = true := by
          rw [hDel]
          exact List.any_eq_true.mpr ⟨f, hfd, by simp⟩
        rw [hany] at hkeep
        simp at hkeep
      have hfS : f ∈ rotatedFilesOf base fs := hperm.mem_iff.mpr hfR
      rw [← hKD] at hfS
      rcases List.mem_append.mp hfS with h | h
      · exact h
      · exact absurd h hfnotD
    · intro hfK
      unfold cleanupOldFiles
      rw [List.mem_filter]
      refine ⟨List.mem_of_mem_filter hfR, ?_⟩
      cases hb : (cleanupDeletions "files" n now base fs).any
          (fun d => decide (d.name = f.name)) with
      | false => rfl
      | true =>
        exfalso
        obtain ⟨d, hd, hp⟩ := List.any_eq_true.mp hb
        have hdname : d.name = f.name := of_decide_eq_true hp
        rw [hDel] at hd
        exact hnameCut f hfK d hd (hdname ▸ rfl)
  · intro f hfK g hgD
    rw [hDel] at hgD
    have hle : mtimeGE f g := hspCut f hfK g hgD
    have hne : f.mtime ≠ g.mtime := hneCut f hfK g hgD
    exact lt_of_le_of_ne hle (fun h => hne h.symm)

/-- The active file next to eight rotated files with distinct mtimes, for
the C6 witness. -/
def filesDemoFs : FS :=
  [⟨"app.log".data, 100, ["active"]⟩,
   ⟨"app.1.log".data, 1, []⟩, ⟨"app.2.log".data, 2, []⟩,
   ⟨"app.3.log".data, 3, []⟩, ⟨"app.4.log".data, 4, []⟩,
   ⟨"app.5.log".data, 5, []⟩, ⟨"app.6.log".data, 6, []⟩,
   ⟨"app.7.log".data, 7, []⟩, ⟨"app.8.log".data, 8, []⟩]

/-- C6 witness: `files` retention with count 5 over 8 concrete rotated
files keeps exactly the 5 most recently modified. -/
theorem cleanup_files_policy_witness :
    ((rotatedFilesOf "app.log".data filesDemoFs).take 5).length =
        min 5 (rotatedOf "app.log".data filesDemoFs).length ∧
      (∀ f ∈ rotatedOf "app.log".data filesDemoFs,
        (f ∈ cleanupOldFiles "files" 5 0 "app.log".data filesDemoFs ↔
          f ∈ (rotatedFilesOf "app.log".data filesDemoFs).take 5)) ∧
      (∀ f ∈ (rotatedFilesOf "app.log".data filesDemoFs).take 5,
        ∀ g ∈ cleanupDeletions "files" 5 0 "app.log".data filesDemoFs,
          g.mtime < f.mtime) ∧
      cleanupDeletions "files" 5 0 "app.log".data filesDemoFs =
        (rotatedFilesOf "app.log".data filesDemoFs).drop 5 :=
  cleanup_files_policy_keeps_most_recent 5 0 "app.log".data filesDemoFs
    (by decide) (by decide)

/-- C7: under a `days`/`hours`/`weeks` policy, pruning computes
`max_age = retention_count x unit seconds` (86400 / 3600 / 604800) and
deletes exactly the rotated files whose age `now - mtime` strictly exceeds
`max_age`, however many rotated files there are; a file of age exactly
`max_age` or less survives. -/
theorem cleanup_time_policy_deletes_by_age :
    ∀ (retentionType : String) (retentionCount : Nat) (now : Int) (base : Name)
      (fs : FS),
      (retentionType = "days" ∨ retentionType = "hours" ∨ retentionType = "weeks") →
      (rotatedOf base fs).Pairwise (fun a b => a.name ≠ b.name) →
      (∀ f ∈ rotatedOf base fs,
        (f ∈ cleanupDeletions retentionType retentionCount now base fs ↔
          (maxAgeSeconds retentionType retentionCount : Int) < now - f.mtime)) ∧
      (∀ f ∈ rotatedOf base fs,
        (f ∈ cleanupOldFiles retentionType retentionCount now base fs ↔
          now - f.mtime ≤ (maxAgeSeconds retentionType retentionCount : Int))) ∧
      maxAgeSeconds "days" retentionCount = retentionCount * 86400 ∧
      maxAgeSeconds "hours" retentionCount = retentionCount * 3600 ∧
      maxAgeSeconds "weeks" retentionCount = retentionCount * 604800 := by
  intro rt n now base fs hrt hn
  have hrtne : rt ≠ "files" := by
    rcases hrt with rfl | rfl | rfl <;> decide
  have hDel : cleanupDeletions rt n now base fs =
      (rotatedFilesOf base fs).filter
        (fun f => decide ((maxAgeSeconds rt n : Int) < now - f.mtime)) := by
    unfold cleanupDeletions
    rw [if_neg hrtne]
  refine ⟨?_, ?_, by simp [maxAgeSeconds], by simp [maxAgeSeconds],
    by simp [maxAgeSeconds]⟩
  · intro f hfR
    rw [hDel, List.mem_filter]
    constructor
    · rintro ⟨_, hp⟩
      exact of_decide_eq_true hp
    · intro hage
      exact ⟨mem_rotatedFilesOf.mpr hfR, decide_eq_true hage⟩
  · intro f hfR
    unfold cleanupOldFiles
    rw [List.mem_filter]
    constructor
    · rintro ⟨_, hkeep⟩
      by_contra hgt
      push_neg at hgt
      have hfD : f ∈ cleanupDeletions rt n now base fs := by
        rw [hDel, List.mem_filter]
        exact ⟨mem_rotatedFilesOf.mpr hfR, decide_eq_true hgt⟩
      have hany : (cleanupDeletions rt n now base fs).any
          (fun d => decide (d.name = f.name)) = true :=
        List.any_eq_true.mpr ⟨f, hfD, by simp⟩
      rw [hany] at hkeep
      simp at hkeep
    · intro hle
      refine ⟨List.mem_of_mem_filter hfR, ?_⟩
      cases hb : (cleanupDeletions rt n now base fs).any
          (fun d => decide (d.name = f.name)) with
      | false => rfl
      | true =>
        exfalso
        obtain ⟨d, hd, hp⟩ := List.any_eq_true.mp hb
        have hdname : d.name = f.name := of_decide_eq_true hp
        rw [hDel, List.mem_filter] at hd
        obtain ⟨hdS, hdp⟩ := hd
        have hdR : d ∈ rotatedOf base fs := mem_rotatedFilesOf.mp hdS
        have hdf : d = f := eq_of_pairwise_name_ne hn hdR hfR hdname
        subst hdf
        have := of_decide_eq_true hdp
        omega

/-- The active file next to a two-day-old and a twelve-hour-old rotated
file, seen from `now = 200000`, for the C7 witness. -/
def daysDemoFs : FS :=
  [⟨"app.log".data, 0, ["active"]⟩,
   ⟨"app.old.log".data, 27200, []⟩,
   ⟨"app.new.log".data, 156800, []⟩]

/-- C7 witness: `days` retention with count 1 deletes the 2-day-old rotated
file (age 172800 > 86400) and keeps the 12-hour-old one (age 43200). -/
theorem cleanup_time_policy_witness :
    (∀ f ∈ rotatedOf "app.log".data daysDemoFs,
        (f ∈ cleanupDeletions "days" 1 200000 "app.log".data daysDemoFs ↔
          (maxAgeSeconds "days" 1 : Int) < 200000 - f.mtime)) ∧
      (∀ f ∈ rotatedOf "app.log".data daysDemoFs,
        (f ∈ cleanupOldFiles "days" 1 200000 "app.log".data daysDemoFs ↔
          200000 - f.mtime ≤ (maxAgeSeconds "days" 1 : Int))) ∧
      maxAgeSeconds "days" 1 = 1 * 86400 ∧
      maxAgeSeconds "hours" 1 = 1 * 3600 ∧
      maxAgeSeconds "weeks" 1 = 1 * 604800 :=
  cleanup_time_policy_deletes_by_age "days" 1 200000 "app.log".data daysDemoFs
    (Or.inl rfl) (by decide)

end OgLogger
